import Mathlib

/-!
Verification of `jmetal/component/critical_distance.py`: the rank computer
(`ranks`), the Nemenyi critical-difference calculator (`NemenyiCD`), the
clique grouper (the inner function `_join_alg` of `CDplot`), and the layout
arithmetic of `CDplot` (validation, rank-sorting, midpoint split, axis
bounds, `uint8` casts).

Matrices are `List (List ℚ)`: rows are algorithms, columns are datasets.
Rational numbers stand for the Python floats; the statistical-table
collaborator `get_tukeyQcrit` and `np.sqrt` enter `NemenyiCD` as explicit
function parameters.
-/

namespace CriticalDistance

/-- The descending sort of a column, embedding `(-1) * np.sort(-data[:, j])`:
negating, sorting ascending and negating back sorts the column in
descending order. -/
def sortDescend (col : List ℚ) : List ℚ :=
  col.insertionSort (fun a b => b ≤ a)

/-- The `return_index` output of `np.unique` applied to the
descending-sorted column, looked up at the value `v` (the mask
`values == data[i, j]` selects exactly the entry of `v`): the index of the
first occurrence of `v` in the descending-sorted column. -/
def uniqueFirstIndex (col : List ℚ) (v : ℚ) : ℕ :=
  (sortDescend col).findIdx (fun x => decide (x = v))

/-- The `return_counts` output of `np.unique`, looked up at the value `v`:
the number of occurrences of `v` in the column. -/
def uniqueCount (col : List ℚ) (v : ℚ) : ℕ :=
  (sortDescend col).count v

/-- One cell of the rank matrix:
`ranks[i, j] = 1 + indices[values == data[i, j]] + 0.5 * (rep[values == data[i, j]] - 1)`
(the matrix is initialized with `np.ones` and the loop adds the other two
terms). -/
def rankValue (col : List ℚ) (v : ℚ) : ℚ :=
  1 + (uniqueFirstIndex col v : ℚ) + (1 / 2) * ((uniqueCount col v : ℚ) - 1)

/-- Column `j` of the matrix, `data[:, j]`. -/
def column (data : List (List ℚ)) (j : ℕ) : List ℚ :=
  data.map (fun row => row.getD j 0)

/-- `ranks(data)`: `ranks[i][j]` is the rank of the `i`-th row with respect
to the `j`-th column; `n_samples = data.shape[1]` is the common row
length. -/
def ranks (data : List (List ℚ)) : List (List ℚ) :=
  data.map (fun row =>
    (List.range (data.headD []).length).map
      (fun j => rankValue (column data j) (row.getD j 0)))

/-- `avranks = np.mean(rranks, axis=1)`: the per-row means of the rank
matrix. -/
def avranks (data : List (List ℚ)) : List ℚ :=
  (ranks data).map (fun row => row.sum / (row.length : ℚ))

/-! ### The clique grouper `_join_alg` -/

/-- `np.where(np.logical_and(avranks - avranks[i] > 0, avranks - avranks[i] < cd))[0]`:
the indices `j` (in increasing order) whose average rank exceeds that of
`i` by a positive amount smaller than `cd`. -/
def eligible (av : List ℚ) (cd : ℚ) (i : ℕ) : List ℕ :=
  (List.range av.length).filter
    (fun j => decide (0 < av.getD j 0 - av.getD i 0) &&
      decide (av.getD j 0 - av.getD i 0 < cd))

/-- Row `i` of the array `sets` after the first loop of `_join_alg`:
`[avranks[i], avranks[elements[-1]]]` when `elements` is non-empty and the
initial sentinel `[-1, -1]` otherwise. -/
def setsRow (av : List ℚ) (cd : ℚ) (i : ℕ) : ℚ × ℚ :=
  match (eligible av cd i).getLast? with
  | some j => (av.getD i 0, av.getD j 0)
  | none => (-1, -1)

/-- The array `sets` after the first loop of `_join_alg`
(`num_alg = len(avranks)`). -/
def setsAll (av : List ℚ) (cd : ℚ) : List (ℚ × ℚ) :=
  (List.range av.length).map (setsRow av cd)

/-- `sets = np.delete(sets, np.where(sets[:, 0] < 0)[0], axis=0)`: the rows
whose first entry is not negative. -/
def setsRows (av : List ℚ) (cd : ℚ) : List (ℚ × ℚ) :=
  (setsAll av cd).filter (fun p => !decide (p.1 < 0))

/-- The second loop of `_join_alg`: starting from row `0`, row `i ≥ 1` is
appended to `group` exactly when `sets[i - 1, 1] < sets[i, 1]` (the
comparison is against the previous row of `sets`, kept or not). -/
def groupScan (prev : ℚ × ℚ) : List (ℚ × ℚ) → List (ℚ × ℚ)
  | [] => []
  | p :: rest => (if prev.2 < p.2 then [p] else []) ++ groupScan p rest

/-- `_join_alg(avranks, num_alg, cd)`. The result is `none` when every row
of `sets` is deleted: the code then evaluates `sets[0, :]` on an array with
zero rows, which raises `IndexError`. -/
def joinAlg (av : List ℚ) (cd : ℚ) : Option (List (ℚ × ℚ)) :=
  match setsRows av cd with
  | [] => none
  | s :: rest => some (s :: groupScan s rest)

/-- Modelled from the spec (§4.3): the candidate list described there — keep
exactly the anchors that have an eligible partner, pair each with the
farthest (last) eligible index. -/
def specCandidates (av : List ℚ) (cd : ℚ) : List (ℚ × ℚ) :=
  ((List.range av.length).filter (fun i => !(eligible av cd i).isEmpty)).map
    (fun i => (av.getD i 0, av.getD ((eligible av cd i).getLast?.getD 0) 0))

/-- Modelled from the spec (§4.3): scanning in increasing anchor order,
keep a candidate exactly when its high endpoint strictly exceeds the high
endpoint of the previously kept candidate. -/
def keepScan (kept : ℚ × ℚ) : List (ℚ × ℚ) → List (ℚ × ℚ)
  | [] => []
  | p :: rest => if kept.2 < p.2 then p :: keepScan p rest else keepScan kept rest

/-- Modelled from the spec (§4.3): the clique sequence — the first
surviving candidate followed by the kept ones of the scan. -/
def specCliques (av : List ℚ) (cd : ℚ) : List (ℚ × ℚ) :=
  match specCandidates av cd with
  | [] => []
  | c :: rest => c :: keepScan c rest

/-! ### `CDplot` validation and layout arithmetic -/

/-- `results.ndim == 2` for the `np.asarray` of a list of rows: the value
is a 2-D array exactly when there is at least one row and all rows have
equal length (a ragged or empty list yields a 1-D array). -/
def ndimTwo (results : List (List ℚ)) : Bool :=
  !results.isEmpty &&
    results.all (fun row => row.length = (results.headD []).length)

/-- The `Initial Checking` block of `CDplot`: `alpha` must be `0.01` or
`0.05`, then `results` must be a 2-D array; each failure raises an
`Exception` with the quoted message, and no other validation is
performed. -/
def cdplotChecks (results : List (List ℚ)) (alpha : ℚ) : Except String Unit :=
  if ¬(alpha = 0.01 ∨ alpha = 0.05) then
    .error "Initialization ERROR: In CDplot(...) alpha must be 0.01 0 or 0.05"
  else if ¬(ndimTwo results = true) then
    .error "Initialization ERROR: In CDplot(...) results must be 2-D array"
  else
    .ok ()

/-- `np.round` at a rational value: round half to even, which is what numpy
applies to the exactly representable double `num_alg / 2.0`. -/
def npRound (q : ℚ) : ℤ :=
  if Int.fract q < 1 / 2 then ⌊q⌋
  else if 1 / 2 < Int.fract q then ⌊q⌋ + 1
  else if ⌊q⌋ % 2 = 0 then ⌊q⌋ else ⌊q⌋ + 1

/-- The value of `np.round(num_alg / 2.0)` before the `astype(np.uint8)`
cast of `spoint = np.round(num_alg / 2.0).astype(np.uint8)`. -/
def spoint (num_alg : ℕ) : ℕ :=
  (npRound ((num_alg : ℚ) / 2)).toNat

/-- `astype(np.uint8)` applied to an integer value: reduction modulo
`2^8`. -/
def uint8cast (z : ℤ) : ℕ := (z % 256).toNat

/-- `spoint = np.round(num_alg / 2.0).astype(np.uint8)`: the split index
the code actually uses, after the `uint8` cast. -/
def spoint8 (num_alg : ℕ) : ℕ :=
  uint8cast (spoint num_alg : ℤ)

/-- `leftalg = avranks[:spoint]` (`spoint` already cast to `np.uint8`). -/
def leftalg (av : List ℚ) : List ℚ :=
  av.take (spoint8 av.length)

/-- `rightalg = avranks[spoint:]` (`spoint` already cast to `np.uint8`). -/
def rightalg (av : List ℚ) : List ℚ :=
  av.drop (spoint8 av.length)

/-- `np.argsort(avranks)`: the indices `0 .. k-1` reordered so that the
corresponding values are ascending (stable). -/
def argsort (av : List ℚ) : List ℕ :=
  (List.range av.length).insertionSort (fun i j => av.getD i 0 ≤ av.getD j 0)

/-- `np.min` of a vector (the empty case is never reached by the code). -/
def npMin : List ℚ → ℚ
  | [] => 0
  | x :: xs => xs.foldl min x

/-- `np.max` of a vector. -/
def npMax : List ℚ → ℚ
  | [] => 0
  | x :: xs => xs.foldl max x

/-- `lowest = np.floor(np.min(avranks))` (value before the `uint8` cast). -/
def lowest (av : List ℚ) : ℤ := ⌊npMin av⌋

/-- `highest = np.ceil(np.max(avranks))` (value before the `uint8` cast). -/
def highest (av : List ℚ) : ℤ := ⌈npMax av⌉

/-- `NemenyiCD(alpha, num_alg, num_dataset)`. The two external numeric
routines are parameters: `Q` stands for the statistical-table collaborator
`get_tukeyQcrit(k, df, alpha)` and `sqrt` for `np.sqrt`. The code first
forms `q_alpha = Q(k, k*(n-1), alpha) / sqrt(2)` and then multiplies by
`sqrt(k*(k+1) / (6.0*n))`. -/
def NemenyiCD (Q : ℕ → ℤ → ℚ → ℚ) (sqrt : ℚ → ℚ)
    (alpha : ℚ) (num_alg num_dataset : ℕ) : ℚ :=
  let q_alpha := Q num_alg ((num_alg : ℤ) * ((num_dataset : ℤ) - 1)) alpha / sqrt 2
  q_alpha * sqrt ((num_alg : ℚ) * ((num_alg : ℚ) + 1) / (6 * (num_dataset : ℚ)))

/-- Modelled from the spec (§4.2): `CD = q_alpha * sqrt(k*(k+1) / (6*n))`
with `q_alpha` the Studentized-range critical value for `k` groups and
`k*(n-1)` degrees of freedom divided by `√2`. -/
def criticalDifferenceSpec (Q : ℕ → ℤ → ℚ → ℚ) (sqrt : ℚ → ℚ)
    (alpha : ℚ) (k n : ℕ) : ℚ :=
  (Q k ((k : ℤ) * ((n : ℤ) - 1)) alpha / sqrt 2) *
    sqrt ((k : ℚ) * ((k : ℚ) + 1) / (6 * (n : ℚ)))

end CriticalDistance

namespace CriticalDistance

/-! ### Helper lemmas: sorting, counting, indexing -/

instance : IsTotal ℚ (fun a b => b ≤ a) := ⟨fun a b => le_total b a⟩

instance : IsTrans ℚ (fun a b => b ≤ a) := ⟨fun _ _ _ h1 h2 => le_trans h2 h1⟩

/-- An in-bounds `getD` is a member of the list. -/
theorem getD_mem_of_lt {α : Type} (l : List α) (d : α) (n : ℕ)
    (h : n < l.length) : l.getD n d ∈ l := by
  rw [List.getD_eq_getElem?_getD, List.getElem?_eq_getElem h]
  exact List.getElem_mem h

theorem sortDescend_sorted (col : List ℚ) :
    List.Sorted (fun a b => b ≤ a) (sortDescend col) :=
  List.sorted_insertionSort _ col

theorem sortDescend_perm (col : List ℚ) : (sortDescend col).Perm col :=
  List.perm_insertionSort _ col

/-- The tie count read off `np.unique` is the plain column count. -/
theorem uniqueCount_eq (col : List ℚ) (v : ℚ) :
    uniqueCount col v = col.count v :=
  (sortDescend_perm col).count_eq v

/-- In a descending-sorted list the index of the first occurrence of a
member `v` is the number of entries strictly greater than `v`. -/
theorem findIdx_eq_countP_of_sorted (l : List ℚ) (v : ℚ)
    (hs : List.Sorted (fun a b => b ≤ a) l) (hv : v ∈ l) :
    l.findIdx (fun x => decide (x = v)) = l.countP (fun x => decide (v < x)) := by
  induction l with
  | nil => simp at hv
  | cons a t ih =>
    rw [List.sorted_cons] at hs
    by_cases ha : a = v
    · subst ha
      have h0 : t.countP (fun x => decide (a < x)) = 0 :=
        List.countP_eq_zero.mpr (fun x hx => by simpa using not_lt.mpr (hs.1 x hx))
      rw [List.findIdx_cons, List.countP_cons]
      simp [h0]
    · have hvt : v ∈ t := by
        rcases List.mem_cons.mp hv with h | h
        · exact absurd h.symm ha
        · exact h
      have hva : v < a := lt_of_le_of_ne (hs.1 v hvt) (fun h => ha h.symm)
      rw [List.findIdx_cons, List.countP_cons]
      simp [ha, hva, ih hs.2 hvt]

/-- The first-occurrence index read off `np.unique` is the number of
strictly greater entries of the column. -/
theorem uniqueFirstIndex_eq (col : List ℚ) (v : ℚ) (hv : v ∈ col) :
    uniqueFirstIndex col v = col.countP (fun x => decide (v < x)) := by
  unfold uniqueFirstIndex
  rw [findIdx_eq_countP_of_sorted _ v (sortDescend_sorted col)
    ((sortDescend_perm col).mem_iff.mpr hv)]
  exact (sortDescend_perm col).countP_eq _

/-- Closed form of a rank cell for a value occurring in the column. -/
theorem rankValue_eq (col : List ℚ) (v : ℚ) (hv : v ∈ col) :
    rankValue col v =
      1 + (col.countP (fun x => decide (v < x)) : ℚ)
        + (1 / 2) * ((col.count v : ℚ) - 1) := by
  unfold rankValue
  rw [uniqueFirstIndex_eq col v hv, uniqueCount_eq]

/-- Reading cell `(i, j)` of the rank matrix. -/
theorem ranks_cell (data : List (List ℚ)) (i j : ℕ)
    (hi : i < data.length) (hj : j < (data.headD []).length) :
    ((ranks data).getD i []).getD j 0 =
      rankValue (column data j) ((data.getD i []).getD j 0) := by
  unfold ranks
  rw [List.getD_eq_getElem?_getD (data.map _), List.getElem?_map,
    List.getElem?_eq_getElem hi]
  simp only [Option.map_some', Option.getD_some]
  rw [List.getD_eq_getElem?_getD, List.getElem?_map,
    List.getElem?_eq_getElem (by simpa using hj)]
  simp only [Option.map_some', Option.getD_some, List.getElem_range]
  rw [List.getD_eq_getElem?_getD data, List.getElem?_eq_getElem hi]
  rfl

/-- Cell `(i, j)` of the data is a member of column `j`. -/
theorem cell_mem_column (data : List (List ℚ)) (i j : ℕ)
    (hi : i < data.length) :
    (data.getD i []).getD j 0 ∈ column data j :=
  List.mem_map.mpr ⟨data.getD i [], getD_mem_of_lt data [] i hi, rfl⟩

/-- `np.round` at an integer value is that value. -/
theorem npRound_intCast (z : ℤ) : npRound ((z : ℚ)) = z := by
  unfold npRound
  rw [Int.fract_intCast, Int.floor_intCast]
  norm_num

/-- `np.round` at an integer plus one half rounds to the even neighbour. -/
theorem npRound_add_half (m : ℤ) :
    npRound ((m : ℚ) + 1 / 2) = if m % 2 = 0 then m else m + 1 := by
  have hf : ⌊(m : ℚ) + 1 / 2⌋ = m := by
    rw [Int.floor_int_add]
    norm_num
  have hfr : Int.fract ((m : ℚ) + 1 / 2) = 1 / 2 := by
    rw [Int.fract_int_add]
    rw [Int.fract_eq_self.mpr (by norm_num)]
  unfold npRound
  rw [hf, hfr]
  norm_num

/-- For an odd algorithm count `k = 2m + 1`, the midpoint
`np.round(k / 2.0)` lands on `m` or `m + 1` according to the parity of `m`,
i.e. according to `k` modulo 4. -/
theorem spoint_odd (k : ℕ) (h : k % 2 = 1) :
    spoint k = if k % 4 = 3 then k / 2 + 1 else k / 2 := by
  obtain ⟨m, rfl⟩ : ∃ m, k = 2 * m + 1 := ⟨k / 2, by omega⟩
  have hq : ((2 * m + 1 : ℕ) : ℚ) / 2 = ((m : ℤ) : ℚ) + 1 / 2 := by
    push_cast
    ring
  unfold spoint
  rw [hq, npRound_add_half]
  rcases Nat.even_or_odd m with he | ho
  · have h2 : ((m : ℕ) : ℤ) % 2 = 0 := by
      have := Nat.even_iff.mp he
      omega
    have h4 : ¬((2 * m + 1) % 4 = 3) := by
      have := Nat.even_iff.mp he
      omega
    rw [if_pos h2, if_neg h4]
    omega
  · have h1 := Nat.odd_iff.mp ho
    have h2 : ¬(((m : ℕ) : ℤ) % 2 = 0) := by omega
    have h4 : (2 * m + 1) % 4 = 3 := by omega
    rw [if_neg h2, if_pos h4]
    omega

/-- The midpoint index never exceeds the list length. -/
theorem spoint_le (k : ℕ) : spoint k ≤ k := by
  rcases Nat.even_or_odd k with he | ho
  · obtain ⟨t, rfl⟩ := he
    have hq : ((t + t : ℕ) : ℚ) / 2 = ((t : ℤ) : ℚ) := by push_cast; ring
    unfold spoint
    rw [hq, npRound_intCast]
    omega
  · have h1 : k % 2 = 1 := Nat.odd_iff.mp ho
    rw [spoint_odd k h1]
    split <;> omega

end CriticalDistance

namespace CriticalDistance

/-- C3: on the all-tied-average scenario `[[1,2,3],[2,3,1],[3,1,2]]` the
`Initial Checking` block of `CDplot` succeeds (no `DegenerateRange`
condition exists in the code), all three average ranks equal `2`, and the
axis range `highest - lowest` that the subsequent coordinate formulas
divide by is `0`: the degenerate case is not surfaced before the division,
contrary to the claim. -/
theorem C3_degenerate_range_not_flagged :
    cdplotChecks [[1, 2, 3], [2, 3, 1], [3, 1, 2]] 0.05 = .ok () ∧
    avranks [[1, 2, 3], [2, 3, 1], [3, 1, 2]] = [2, 2, 2] ∧
    highest (avranks [[1, 2, 3], [2, 3, 1], [3, 1, 2]]) -
      lowest (avranks [[1, 2, 3], [2, 3, 1], [3, 1, 2]]) = 0 := by
  have hav : avranks [[1, 2, 3], [2, 3, 1], [3, 1, 2]] = [2, 2, 2] := by
    norm_num [avranks, ranks, rankValue, column, uniqueFirstIndex, uniqueCount,
      sortDescend, List.insertionSort, List.orderedInsert, List.findIdx,
      List.findIdx.go, List.range, List.range.loop, List.count, List.countP,
      List.countP.go, beq_iff_eq, Bool.cond_eq_ite]
  refine ⟨by norm_num [cdplotChecks, ndimTwo], hav, ?_⟩
  rw [hav]
  norm_num [highest, lowest, npMax, npMin]

/-- C4: with average ranks `[1, 2]` and `cd = 1/2` no pair satisfies
`0 < difference < cd`, every row of `sets` is deleted, and `_join_alg`
evaluates `sets[0, :]` on a zero-row array — an `IndexError` (modelled as
`none`), not the empty clique sequence the claim requires. -/
theorem C4_join_alg_empty_raises :
    joinAlg [1, 2] (1 / 2) = none := by
  norm_num [joinAlg, setsRows, setsAll, setsRow, eligible, List.range,
    List.range.loop, List.filter]

/-- C5: `NemenyiCD` computes exactly the spec formula
`(Q(k, k*(n-1), alpha) / sqrt 2) * sqrt (k*(k+1) / (6*n))`, with `Q` the
statistical-table collaborator, for every valid `alpha`, `k ≥ 2`,
`n ≥ 1`. -/
theorem C5_nemenyi_matches_spec (Q : ℕ → ℤ → ℚ → ℚ) (sqrt : ℚ → ℚ)
    (alpha : ℚ) (k n : ℕ) (ha : alpha = 0.01 ∨ alpha = 0.05)
    (hk : 2 ≤ k) (hn : 1 ≤ n) :
    NemenyiCD Q sqrt alpha k n = criticalDifferenceSpec Q sqrt alpha k n := rfl

/-- Witness for C5 at `Q = 1`, `sqrt = id`, `alpha = 0.05`, `k = 2`,
`n = 3`. -/
theorem C5_nemenyi_matches_spec_witness :
    ((0.05 : ℚ) = 0.01 ∨ (0.05 : ℚ) = 0.05) ∧ 2 ≤ 2 ∧ 1 ≤ 3 ∧
    NemenyiCD (fun _ _ _ => 1) id 0.05 2 3 =
      criticalDifferenceSpec (fun _ _ _ => 1) id 0.05 2 3 :=
  ⟨Or.inr rfl, by decide, by decide,
    C5_nemenyi_matches_spec (fun _ _ _ => 1) id 0.05 2 3 (Or.inr rfl)
      (by decide) (by decide)⟩

/-- C6: for any `alpha` other than `0.01` and `0.05` the `Initial Checking`
block of `CDplot` raises the `InvalidArgument` exception before the
critical difference is computed. -/
theorem C6_invalid_alpha_rejected (results : List (List ℚ)) (alpha : ℚ)
    (h : ¬(alpha = 0.01 ∨ alpha = 0.05)) :
    cdplotChecks results alpha =
      .error "Initialization ERROR: In CDplot(...) alpha must be 0.01 0 or 0.05" := by
  unfold cdplotChecks
  rw [if_pos h]

/-- Witness for C6 at `alpha = 0.1`. -/
theorem C6_invalid_alpha_rejected_witness :
    (¬((0.1 : ℚ) = 0.01 ∨ (0.1 : ℚ) = 0.05)) ∧
    cdplotChecks [[1, 2], [2, 1]] 0.1 =
      .error "Initialization ERROR: In CDplot(...) alpha must be 0.01 0 or 0.05" :=
  ⟨by norm_num, C6_invalid_alpha_rejected [[1, 2], [2, 1]] 0.1 (by norm_num)⟩

/-- C7: a results matrix with a single algorithm row passes the only
validation `CDplot` performs (`alpha` and 2-D-ness); no `InvalidArgument`
condition for `numAlgorithms < 2` or `numDatasets < 1` exists in the code,
and the pipeline proceeds to the numeric work, contrary to the claim. -/
theorem C7_single_algorithm_passes_validation :
    cdplotChecks [[1, 2, 3]] 0.05 = .ok () ∧
    cdplotChecks [[], []] 0.05 = .ok () := by
  refine ⟨by norm_num [cdplotChecks, ndimTwo], by norm_num [cdplotChecks, ndimTwo]⟩

/-- C9 counterexample: with `k = 5` algorithms the left half holds
`spoint 5 = np.round(2.5) = 2` entries (round half to even), not
`ceil(5/2) = 3` as the claim states. -/
theorem C9_counterexample :
    ¬ ((leftalg [1, 2, 3, 4, 5]).length = 3 ∧
      (rightalg [1, 2, 3, 4, 5]).length = 2) := by
  have h5 : spoint 5 = 2 := by
    rw [spoint_odd 5 (by norm_num)]
    norm_num
  have h8 : spoint8 5 = 2 := by
    unfold spoint8 uint8cast
    rw [h5]
    decide
  simp only [leftalg, rightalg, List.length_cons, List.length_nil]
  norm_num [h8]

/-- C9 (amended): for an odd number `k ≤ 255` of algorithms (the bound
under which the `uint8` cast of the split index is value-preserving, cf.
C10) the left half holds `ceil(k/2)` entries when `k ≡ 3 (mod 4)` and
`floor(k/2)` entries when `k ≡ 1 (mod 4)` (`np.round` rounds halves to
even); the right half holds the rest. -/
theorem C9_split_lengths (av : List ℚ) (h : av.length % 2 = 1)
    (hk : av.length ≤ 255) :
    (leftalg av).length =
      (if av.length % 4 = 3 then (av.length + 1) / 2 else av.length / 2) ∧
    (rightalg av).length = av.length - (leftalg av).length := by
  have hle : spoint av.length ≤ av.length := spoint_le av.length
  have hsp := spoint_odd av.length h
  have hcast : spoint8 av.length = spoint av.length := by
    unfold spoint8 uint8cast
    omega
  constructor
  · rw [leftalg, List.length_take, hcast, hsp]
    split <;> omega
  · rw [rightalg, List.length_drop, leftalg, List.length_take, hcast]
    omega

/-- Witness for C9 (amended) at the three-element list `[1, 2, 3]`. -/
theorem C9_split_lengths_witness :
    ([(1 : ℚ), 2, 3].length % 2 = 1) ∧ [(1 : ℚ), 2, 3].length ≤ 255 ∧
    ((leftalg [(1 : ℚ), 2, 3]).length =
      (if [(1 : ℚ), 2, 3].length % 4 = 3 then ([(1 : ℚ), 2, 3].length + 1) / 2
        else [(1 : ℚ), 2, 3].length / 2) ∧
    (rightalg [(1 : ℚ), 2, 3]).length =
      [(1 : ℚ), 2, 3].length - (leftalg [(1 : ℚ), 2, 3]).length) :=
  ⟨by decide, by decide, C9_split_lengths [(1 : ℚ), 2, 3] (by decide) (by decide)⟩

end CriticalDistance

namespace CriticalDistance

/-- C1: for a 2-D results matrix, cell `(i, j)` of `ranks(data)` equals
`1 + (number of column-j entries strictly greater than data[i][j])
+ 0.5 * (number of column-j entries equal to data[i][j] - 1)`, and any two
rows holding equal values in column `j` receive the same mid-rank. -/
theorem C1_rank_cell_formula (data : List (List ℚ)) (i j : ℕ)
    (hrect : ∀ row ∈ data, row.length = (data.headD []).length)
    (hi : i < data.length) (hj : j < (data.headD []).length) :
    ((ranks data).getD i []).getD j 0 =
      1 + ((column data j).countP
            (fun x => decide ((data.getD i []).getD j 0 < x)) : ℚ)
        + (1 / 2) * (((column data j).count ((data.getD i []).getD j 0) : ℚ) - 1) ∧
    (∀ i', i' < data.length →
      (data.getD i' []).getD j 0 = (data.getD i []).getD j 0 →
      ((ranks data).getD i' []).getD j 0 = ((ranks data).getD i []).getD j 0) := by
  constructor
  · rw [ranks_cell data i j hi hj]
    exact rankValue_eq _ _ (cell_mem_column data i j hi)
  · intro i' hi' heq
    rw [ranks_cell data i j hi hj, ranks_cell data i' j hi' hj, heq]

/-- Witness for C1 on the tied matrix `[[3,3],[3,1],[1,2]]` at cell
`(0, 0)`. -/
theorem C1_rank_cell_formula_witness :
    (∀ row ∈ [[(3 : ℚ), 3], [3, 1], [1, 2]], row.length =
      ([[(3 : ℚ), 3], [3, 1], [1, 2]].headD []).length) ∧ 0 < 3 ∧ 0 < 2 ∧
    (((ranks [[(3 : ℚ), 3], [3, 1], [1, 2]]).getD 0 []).getD 0 0 =
      1 + ((column [[(3 : ℚ), 3], [3, 1], [1, 2]] 0).countP
            (fun x => decide (([[(3 : ℚ), 3], [3, 1], [1, 2]].getD 0 []).getD 0 0 < x)) : ℚ)
        + (1 / 2) * (((column [[(3 : ℚ), 3], [3, 1], [1, 2]] 0).count
            (([[(3 : ℚ), 3], [3, 1], [1, 2]].getD 0 []).getD 0 0) : ℚ) - 1) ∧
    (∀ i', i' < [[(3 : ℚ), 3], [3, 1], [1, 2]].length →
      ([[(3 : ℚ), 3], [3, 1], [1, 2]].getD i' []).getD 0 0 =
        ([[(3 : ℚ), 3], [3, 1], [1, 2]].getD 0 []).getD 0 0 →
      ((ranks [[(3 : ℚ), 3], [3, 1], [1, 2]]).getD i' []).getD 0 0 =
        ((ranks [[(3 : ℚ), 3], [3, 1], [1, 2]]).getD 0 []).getD 0 0)) :=
  ⟨by decide, by decide, by decide,
    C1_rank_cell_formula [[(3 : ℚ), 3], [3, 1], [1, 2]] 0 0 (by decide)
      (by decide) (by decide)⟩

end CriticalDistance

namespace CriticalDistance

/-- Strictly more entries exceed `v` than exceed a member `w > v`. -/
theorem countP_lt_of_mem_gt (col : List ℚ) (v w : ℚ) (hw : w ∈ col)
    (hvw : v < w) :
    col.countP (fun x => decide (w < x)) < col.countP (fun x => decide (v < x)) := by
  induction col with
  | nil => simp at hw
  | cons a t ih =>
    rw [List.countP_cons, List.countP_cons]
    rcases List.mem_cons.mp hw with rfl | hwt
    · have hmono : t.countP (fun x => decide (w < x)) ≤
          t.countP (fun x => decide (v < x)) := by
        apply List.countP_mono_left
        intro x _ hx
        simp only [decide_eq_true_eq] at hx ⊢
        exact hvw.trans hx
      have h1 : ¬(w < w) := lt_irrefl w
      simp [h1, hvw]
      omega
    · have hlt := ih hwt
      by_cases h1 : w < a
      · have h2 : v < a := hvw.trans h1
        simp [h1, h2]
        omega
      · by_cases h2 : v < a
        · simp [h1, h2]
          omega
        · simp [h1, h2]
          omega

/-- No entry exceeds itself, so the strictly-greater count of a member is
below the column length. -/
theorem countP_lt_length_of_mem (col : List ℚ) (v : ℚ) (hv : v ∈ col) :
    col.countP (fun x => decide (v < x)) < col.length := by
  have h := List.length_eq_countP_add_countP (fun x => decide (v < x)) col
  have hpos : 0 < col.countP (fun x => decide ¬(decide (v < x) = true)) := by
    rw [List.countP_pos_iff]
    exact ⟨v, hv, by simp⟩
  omega

theorem toFinset_map_list (l : List ℚ) (f : ℚ → ℕ) :
    (l.map f).toFinset = l.toFinset.image f := by
  have h := Multiset.toFinset_map f (l : Multiset ℚ)
  simpa using h

theorem range_toFinset (n : ℕ) : (List.range n).toFinset = Finset.range n := by
  ext x
  simp

/-- On a column without ties the strictly-greater counts of the entries
are a permutation of `0 .. k-1`. -/
theorem countP_image_perm_range (col : List ℚ) (hnd : col.Nodup) :
    (col.map (fun v => col.countP (fun x => decide (v < x)))).Perm
      (List.range col.length) := by
  have hinj : ∀ v ∈ col, ∀ w ∈ col,
      col.countP (fun x => decide (v < x)) = col.countP (fun x => decide (w < x)) →
      v = w := by
    intro v hv w hw hgvw
    rcases lt_trichotomy v w with h | h | h
    · exact absurd hgvw (ne_of_gt (countP_lt_of_mem_gt col v w hw h))
    · exact h
    · exact absurd hgvw (ne_of_lt (countP_lt_of_mem_gt col w v hv h))
  have hnodmap : (col.map (fun v => col.countP (fun x => decide (v < x)))).Nodup :=
    List.Nodup.map_on hinj hnd
  apply List.perm_of_nodup_nodup_toFinset_eq hnodmap (List.nodup_range _)
  rw [toFinset_map_list, range_toFinset]
  apply Finset.eq_of_subset_of_card_le
  · intro x hx
    rw [Finset.mem_image] at hx
    obtain ⟨v, hv, rfl⟩ := hx
    rw [Finset.mem_range]
    exact countP_lt_length_of_mem col v (List.mem_toFinset.mp hv)
  · rw [Finset.card_range,
      Finset.card_image_of_injOn
        (fun v hv w hw => hinj v (List.mem_toFinset.mp hv) w (List.mem_toFinset.mp hw)),
      List.toFinset_card_of_nodup hnd]

/-- On a column without ties the rank values are a permutation of
`1 .. k`. -/
theorem rank_column_perm (col : List ℚ) (hnd : col.Nodup) :
    (col.map (fun v => rankValue col v)).Perm
      ((List.range col.length).map (fun m => ((m + 1 : ℕ) : ℚ))) := by
  have hmap : col.map (fun v => rankValue col v)
      = (col.map (fun v => col.countP (fun x => decide (v < x)))).map
          (fun m : ℕ => ((m + 1 : ℕ) : ℚ)) := by
    rw [List.map_map]
    apply List.map_congr_left
    intro v hv
    simp only [Function.comp]
    rw [rankValue_eq col v hv, List.count_eq_one_of_mem hnd hv]
    push_cast
    ring
  rw [hmap]
  exact (countP_image_perm_range col hnd).map _

/-- C8: in a 2-D results matrix whose column `j` has no tie, the `j`-th
column of `ranks(data)` is a permutation of `1 .. k` (`k` the number of
rows). -/
theorem C8_no_ties_permutation (data : List (List ℚ)) (j : ℕ)
    (hrect : ∀ row ∈ data, row.length = (data.headD []).length)
    (hj : j < (data.headD []).length)
    (hnd : (column data j).Nodup) :
    ((ranks data).map (fun row => row.getD j 0)).Perm
      ((List.range data.length).map (fun m => ((m + 1 : ℕ) : ℚ))) := by
  have hcol : (ranks data).map (fun row => row.getD j 0)
      = (column data j).map (fun v => rankValue (column data j) v) := by
    unfold ranks column
    rw [List.map_map, List.map_map]
    apply List.map_congr_left
    intro row hrow
    simp only [Function.comp]
    rw [List.getD_eq_getElem?_getD, List.getElem?_map,
      List.getElem?_eq_getElem (by simpa using hj)]
    simp [List.getElem_range]
  have hlen : (column data j).length = data.length := by
    unfold column
    rw [List.length_map]
  rw [hcol, ← hlen]
  exact rank_column_perm _ hnd

/-- Witness for C8 on the tie-free matrix `[[1,2],[3,1],[2,3]]`, column
`0`. -/
theorem C8_no_ties_permutation_witness :
    (∀ row ∈ [[(1 : ℚ), 2], [3, 1], [2, 3]], row.length =
      ([[(1 : ℚ), 2], [3, 1], [2, 3]].headD []).length) ∧ 0 < 2 ∧
    (column [[(1 : ℚ), 2], [3, 1], [2, 3]] 0).Nodup ∧
    ((ranks [[(1 : ℚ), 2], [3, 1], [2, 3]]).map (fun row => row.getD 0 0)).Perm
      ((List.range [[(1 : ℚ), 2], [3, 1], [2, 3]].length).map
        (fun m => ((m + 1 : ℕ) : ℚ))) :=
  ⟨by decide, by decide, by decide,
    C8_no_ties_permutation [[(1 : ℚ), 2], [3, 1], [2, 3]] 0 (by decide)
      (by decide) (by decide)⟩

end CriticalDistance

namespace CriticalDistance

theorem foldl_min_le_init (xs : List ℚ) (acc : ℚ) : xs.foldl min acc ≤ acc := by
  induction xs generalizing acc with
  | nil => simp
  | cons a t ih =>
    rw [List.foldl_cons]
    exact (ih (min acc a)).trans (min_le_left acc a)

theorem le_foldl_min (c : ℚ) (xs : List ℚ) (acc : ℚ) (hacc : c ≤ acc)
    (hxs : ∀ x ∈ xs, c ≤ x) : c ≤ xs.foldl min acc := by
  induction xs generalizing acc with
  | nil => simpa
  | cons a t ih =>
    rw [List.foldl_cons]
    exact ih (min acc a) (le_min hacc (hxs a (by simp)))
      (fun x hx => hxs x (by simp [hx]))

theorem init_le_foldl_max (xs : List ℚ) (acc : ℚ) : acc ≤ xs.foldl max acc := by
  induction xs generalizing acc with
  | nil => simp
  | cons a t ih =>
    rw [List.foldl_cons]
    exact (le_max_left acc a).trans (ih (max acc a))

theorem foldl_max_le (c : ℚ) (xs : List ℚ) (acc : ℚ) (hacc : acc ≤ c)
    (hxs : ∀ x ∈ xs, x ≤ c) : xs.foldl max acc ≤ c := by
  induction xs generalizing acc with
  | nil => simpa
  | cons a t ih =>
    rw [List.foldl_cons]
    exact ih (max acc a) (max_le hacc (hxs a (by simp)))
      (fun x hx => hxs x (by simp [hx]))

/-- Entries strictly greater than `v` plus copies of `v` never exceed the
column length. -/
theorem countP_add_count_le (col : List ℚ) (v : ℚ) :
    col.countP (fun x => decide (v < x)) + col.count v ≤ col.length := by
  induction col with
  | nil => simp
  | cons a t ih =>
    rw [List.countP_cons, List.count_cons, List.length_cons]
    by_cases h2 : v = a
    · subst h2
      have h : ¬(v < v) := lt_irrefl v
      simp [h]
      omega
    · have h2' : ¬(a = v) := fun he => h2 he.symm
      by_cases h : v < a
      · simp [h, h2, h2']
        omega
      · simp [h, h2, h2']
        omega

/-- Every rank value of a column member lies in `[1, k]`. -/
theorem rankValue_bounds (col : List ℚ) (v : ℚ) (hv : v ∈ col) :
    1 ≤ rankValue col v ∧ rankValue col v ≤ (col.length : ℚ) := by
  rw [rankValue_eq col v hv]
  have hc1 : 1 ≤ col.count v := List.count_pos_iff.mpr hv
  have hsum := countP_add_count_le col v
  have hc1q : (1 : ℚ) ≤ (col.count v : ℚ) := by exact_mod_cast hc1
  have hsumq : (col.countP (fun x => decide (v < x)) : ℚ) + (col.count v : ℚ)
      ≤ (col.length : ℚ) := by exact_mod_cast hsum
  have hg0 : (0 : ℚ) ≤ (col.countP (fun x => decide (v < x)) : ℚ) := by positivity
  constructor
  · linarith
  · linarith

theorem avranks_length (data : List (List ℚ)) :
    (avranks data).length = data.length := by
  unfold avranks ranks
  rw [List.length_map, List.length_map]

/-- Every average rank lies in `[1, k]` (`k` rows, at least one column). -/
theorem avranks_mem_bounds (data : List (List ℚ))
    (hn : 1 ≤ (data.headD []).length) :
    ∀ a ∈ avranks data, 1 ≤ a ∧ a ≤ (data.length : ℚ) := by
  intro a ha
  unfold avranks at ha
  rw [List.mem_map] at ha
  obtain ⟨row, hrow, rfl⟩ := ha
  unfold ranks at hrow
  rw [List.mem_map] at hrow
  obtain ⟨drow, hdrow, rfl⟩ := hrow
  have hbounds : ∀ x ∈ (List.range (data.headD []).length).map
      (fun j => rankValue (column data j) (drow.getD j 0)),
      1 ≤ x ∧ x ≤ (data.length : ℚ) := by
    intro x hx
    rw [List.mem_map] at hx
    obtain ⟨j, hj, rfl⟩ := hx
    have hmem : drow.getD j 0 ∈ column data j :=
      List.mem_map.mpr ⟨drow, hdrow, rfl⟩
    have hb := rankValue_bounds (column data j) _ hmem
    have hcl : (column data j).length = data.length := by
      unfold column
      rw [List.length_map]
    rw [hcl] at hb
    exact hb
  set l := (List.range (data.headD []).length).map
    (fun j => rankValue (column data j) (drow.getD j 0)) with hl
  have hlen : l.length = (data.headD []).length := by
    rw [hl, List.length_map, List.length_range]
  have hlpos : 0 < (l.length : ℚ) := by
    rw [hlen]
    exact_mod_cast hn
  have hsum_lo : (l.length : ℚ) * 1 ≤ l.sum := by
    have := List.card_nsmul_le_sum (l := l) (n := (1 : ℚ))
      (fun x hx => (hbounds x hx).1)
    simpa [nsmul_eq_mul] using this
  have hsum_hi : l.sum ≤ (l.length : ℚ) * (data.length : ℚ) := by
    have := List.sum_le_card_nsmul l ((data.length : ℚ))
      (fun x hx => (hbounds x hx).2)
    simpa [nsmul_eq_mul] using this
  constructor
  · rw [le_div_iff hlpos]
    linarith
  · rw [div_le_iff hlpos]
    linarith

theorem uint8cast_eq_self (z : ℤ) (h0 : 0 ≤ z) (h256 : z < 256) :
    (uint8cast z : ℤ) = z := by
  unfold uint8cast
  omega

/-- C10: with at most 255 algorithms, every value `CDplot` casts to
`np.uint8` — the `argsort` permutation indices, the midpoint `spoint`, and
the integer axis bounds `lowest`/`highest` — is preserved by the cast
(no wrap-around modulo 256). -/
theorem C10_uint8_casts_value_preserving (data : List (List ℚ))
    (hrect : ∀ row ∈ data, row.length = (data.headD []).length)
    (hk1 : 1 ≤ data.length) (hk255 : data.length ≤ 255)
    (hn : 1 ≤ (data.headD []).length) :
    (∀ i ∈ argsort (avranks data), (uint8cast (i : ℤ) : ℤ) = (i : ℤ)) ∧
    (uint8cast (spoint data.length : ℤ) : ℤ) = (spoint data.length : ℤ) ∧
    (uint8cast (lowest (avranks data)) : ℤ) = lowest (avranks data) ∧
    (uint8cast (highest (avranks data)) : ℤ) = highest (avranks data) := by
  have hbounds := avranks_mem_bounds data hn
  have hlen := avranks_length data
  have hne : avranks data ≠ [] := by
    intro h
    rw [h] at hlen
    simp at hlen
    omega
  obtain ⟨a0, av0, hav⟩ : ∃ a0 av0, avranks data = a0 :: av0 := by
    cases havr : avranks data with
    | nil => exact absurd havr hne
    | cons a t => exact ⟨a, t, rfl⟩
  refine ⟨?_, ?_, ?_, ?_⟩
  · intro i hi
    have hiR : i ∈ List.range (avranks data).length :=
      (List.perm_insertionSort _ _).mem_iff.mp hi
    rw [List.mem_range, hlen] at hiR
    exact uint8cast_eq_self (i : ℤ) (by omega) (by omega)
  · have hsp := spoint_le data.length
    exact uint8cast_eq_self _ (by omega) (by omega)
  · have h1 : (1 : ℚ) ≤ npMin (avranks data) := by
      rw [hav]
      simp only [npMin]
      exact le_foldl_min 1 av0 a0 (hbounds a0 (by rw [hav]; simp)).1
        (fun x hx => (hbounds x (by rw [hav]; simp [hx])).1)
    have h2 : npMin (avranks data) ≤ (data.length : ℚ) := by
      rw [hav]
      simp only [npMin]
      exact (foldl_min_le_init av0 a0).trans (hbounds a0 (by rw [hav]; simp)).2
    have hlo1 : (1 : ℤ) ≤ lowest (avranks data) := by
      rw [lowest, Int.le_floor]
      exact_mod_cast h1
    have hlo2 : lowest (avranks data) ≤ 255 := by
      have hx : npMin (avranks data) ≤ (255 : ℚ) := by
        refine h2.trans ?_
        exact_mod_cast hk255
      rw [lowest]
      calc ⌊npMin (avranks data)⌋ ≤ ⌊(255 : ℚ)⌋ := Int.floor_mono hx
        _ = 255 := by norm_num
    exact uint8cast_eq_self _ (by omega) (by omega)
  · have h1 : (1 : ℚ) ≤ npMax (avranks data) := by
      rw [hav]
      simp only [npMax]
      exact le_trans (hbounds a0 (by rw [hav]; simp)).1 (init_le_foldl_max av0 a0)
    have h2 : npMax (avranks data) ≤ (data.length : ℚ) := by
      rw [hav]
      simp only [npMax]
      exact foldl_max_le _ av0 a0 (hbounds a0 (by rw [hav]; simp)).2
        (fun x hx => (hbounds x (by rw [hav]; simp [hx])).2)
    have hhi1 : (1 : ℤ) ≤ highest (avranks data) := by
      rw [highest]
      calc (1 : ℤ) = ⌈(1 : ℚ)⌉ := by norm_num
        _ ≤ ⌈npMax (avranks data)⌉ := Int.ceil_mono h1
    have hhi2 : highest (avranks data) ≤ 255 := by
      rw [highest, Int.ceil_le]
      refine h2.trans ?_
      exact_mod_cast hk255
    exact uint8cast_eq_self _ (by omega) (by omega)

end CriticalDistance

namespace CriticalDistance

/-- Witness for C10 on the matrix `[[1, 2], [2, 1]]`. -/
theorem C10_uint8_casts_value_preserving_witness :
    (∀ row ∈ [[(1 : ℚ), 2], [2, 1]], row.length =
      ([[(1 : ℚ), 2], [2, 1]].headD []).length) ∧
    1 ≤ [[(1 : ℚ), 2], [2, 1]].length ∧ [[(1 : ℚ), 2], [2, 1]].length ≤ 255 ∧
    1 ≤ ([[(1 : ℚ), 2], [2, 1]].headD []).length ∧
    ((∀ i ∈ argsort (avranks [[(1 : ℚ), 2], [2, 1]]),
        (uint8cast (i : ℤ) : ℤ) = (i : ℤ)) ∧
      (uint8cast (spoint [[(1 : ℚ), 2], [2, 1]].length : ℤ) : ℤ) =
        (spoint [[(1 : ℚ), 2], [2, 1]].length : ℤ) ∧
      (uint8cast (lowest (avranks [[(1 : ℚ), 2], [2, 1]])) : ℤ) =
        lowest (avranks [[(1 : ℚ), 2], [2, 1]]) ∧
      (uint8cast (highest (avranks [[(1 : ℚ), 2], [2, 1]])) : ℤ) =
        highest (avranks [[(1 : ℚ), 2], [2, 1]])) :=
  ⟨by decide, by decide, by decide, by decide,
    C10_uint8_casts_value_preserving [[(1 : ℚ), 2], [2, 1]] (by decide)
      (by decide) (by decide) (by decide)⟩

end CriticalDistance

namespace CriticalDistance

/-- Decoding membership in `eligible`. -/
theorem eligible_mem_iff (av : List ℚ) (cd : ℚ) (i j : ℕ) :
    j ∈ eligible av cd i ↔
      j < av.length ∧ 0 < av.getD j 0 - av.getD i 0 ∧
        av.getD j 0 - av.getD i 0 < cd := by
  unfold eligible
  rw [List.mem_filter, List.mem_range]
  simp [Bool.and_eq_true, decide_eq_true_eq, and_assoc]

/-- The survivors of the row deletion are exactly the anchors with an
eligible partner, paired with the farthest one (spec wording). -/
theorem setsRows_eq_specCandidates (av : List ℚ) (cd : ℚ)
    (hnn : ∀ x ∈ av, 0 ≤ x) :
    setsRows av cd = specCandidates av cd := by
  unfold setsRows setsAll specCandidates
  rw [List.filter_map]
  have hpq : ∀ i ∈ List.range av.length,
      ((fun p => !decide (p.1 < 0)) ∘ setsRow av cd) i =
        (fun i => !(eligible av cd i).isEmpty) i := by
    intro i hiR
    simp only [Function.comp]
    cases hL : (eligible av cd i).getLast? with
    | none =>
      rw [List.getLast?_eq_none_iff] at hL
      have hrow : setsRow av cd i = (-1, -1) := by
        simp [setsRow, hL]
      rw [hrow]
      have hm1 : ((-1 : ℚ), (-1 : ℚ)).1 < 0 := by norm_num
      simp [hL, hm1]
    | some j =>
      have hne : eligible av cd i ≠ [] := by
        intro h
        rw [h] at hL
        simp at hL
      have h0 : (0 : ℚ) ≤ av.getD i 0 :=
        hnn _ (getD_mem_of_lt av 0 i (by simpa using hiR))
      have hrow : setsRow av cd i = (av.getD i 0, av.getD j 0) := by
        simp [setsRow, hL]
      have hie : (eligible av cd i).isEmpty = false := by
        simp [List.isEmpty_iff, hne]
      rw [hrow, hie]
      show (!decide (av.getD i 0 < 0)) = !false
      rw [decide_eq_false (not_lt.mpr h0)]
  rw [List.filter_congr hpq]
  apply List.map_congr_left
  intro i hi
  rw [List.mem_filter] at hi
  cases hL : (eligible av cd i).getLast? with
  | none =>
    exfalso
    rw [List.getLast?_eq_none_iff] at hL
    rw [hL] at hi
    simp at hi
  | some j =>
    simp [setsRow, hL]

/-- The last element of `eligible` (the farthest partner) dominates every
element. -/
theorem le_getLast_of_pairwise_lt (l : List ℕ) (hp : l.Pairwise (· < ·))
    (j : ℕ) (hj : l.getLast? = some j) : ∀ x ∈ l, x ≤ j := by
  induction l with
  | nil => simp
  | cons a t ih =>
    cases t with
    | nil =>
      simp only [List.getLast?_singleton, Option.some_inj] at hj
      subst hj
      simp
    | cons b u =>
      rw [List.getLast?_cons_cons] at hj
      intro x hx
      rcases List.mem_cons.mp hx with rfl | hxt
      · have hne : (b :: u) ≠ [] := by simp
        have hjmem : j ∈ b :: u := by
          rw [List.getLast?_eq_getLast _ hne, Option.some_inj] at hj
          rw [← hj]
          exact List.getLast_mem hne
        exact le_of_lt ((List.pairwise_cons.mp hp).1 j hjmem)
      · exact ih (List.pairwise_cons.mp hp).2 hj x hxt

theorem eligible_pairwise (av : List ℚ) (cd : ℚ) (i : ℕ) :
    (eligible av cd i).Pairwise (· < ·) :=
  List.Pairwise.filter _ (List.pairwise_lt_range _)

/-- Sorted lists are monotone under positional `getD` access. -/
theorem getD_sorted_mono (av : List ℚ) (hsort : List.Sorted (· ≤ ·) av)
    (i i' : ℕ) (hle : i ≤ i') (hi' : i' < av.length) :
    av.getD i 0 ≤ av.getD i' 0 := by
  rcases eq_or_lt_of_le hle with rfl | hlt
  · exact le_refl _
  · have hi : i < av.length := lt_trans hlt hi'
    rw [List.getD_eq_getElem?_getD, List.getElem?_eq_getElem hi,
      List.getD_eq_getElem?_getD, List.getElem?_eq_getElem hi']
    simp only [Option.getD_some]
    have := List.pairwise_iff_get.mp hsort ⟨i, hi⟩ ⟨i', hi'⟩ hlt
    simpa [List.get_eq_getElem] using this

/-- On ascending average ranks the high endpoint of a surviving row is
monotone in the anchor index. -/
theorem high_endpoint_mono (av : List ℚ) (cd : ℚ)
    (hsort : List.Sorted (· ≤ ·) av) (i i' : ℕ) (hle : i ≤ i')
    (hi' : i' < av.length) (j j' : ℕ)
    (hj : (eligible av cd i).getLast? = some j)
    (hj' : (eligible av cd i').getLast? = some j') :
    av.getD j 0 ≤ av.getD j' 0 := by
  have hjm : j ∈ eligible av cd i := by
    have hne : eligible av cd i ≠ [] := by
      intro h
      rw [h] at hj
      simp at hj
    rw [List.getLast?_eq_getLast _ hne, Option.some_inj] at hj
    rw [← hj]
    exact List.getLast_mem hne
  have hj'm : j' ∈ eligible av cd i' := by
    have hne : eligible av cd i' ≠ [] := by
      intro h
      rw [h] at hj'
      simp at hj'
    rw [List.getLast?_eq_getLast _ hne, Option.some_inj] at hj'
    rw [← hj']
    exact List.getLast_mem hne
  obtain ⟨hjlt, hjpos, hjcd⟩ := (eligible_mem_iff av cd i j).mp hjm
  obtain ⟨hj'lt, hj'pos, hj'cd⟩ := (eligible_mem_iff av cd i' j').mp hj'm
  have hii' : av.getD i 0 ≤ av.getD i' 0 := getD_sorted_mono av hsort i i' hle hi'
  by_cases hcase : av.getD j 0 ≤ av.getD i' 0
  · linarith
  · push_neg at hcase
    have hjel' : j ∈ eligible av cd i' := by
      rw [eligible_mem_iff]
      refine ⟨hjlt, by linarith, by linarith⟩
    have hjle : j ≤ j' :=
      le_getLast_of_pairwise_lt _ (eligible_pairwise av cd i') j' hj' j hjel'
    exact getD_sorted_mono av hsort j j' hjle hj'lt

/-- On sorted non-negative average ranks the high endpoints of the
surviving rows form a non-decreasing chain. -/
theorem setsRows_high_chain (av : List ℚ) (cd : ℚ)
    (hsort : List.Sorted (· ≤ ·) av) (hnn : ∀ x ∈ av, 0 ≤ x) :
    (setsRows av cd).Chain' (fun p q => p.2 ≤ q.2) := by
  rw [setsRows_eq_specCandidates av cd hnn]
  unfold specCandidates
  apply List.Pairwise.chain'
  rw [List.pairwise_map]
  have hp : ((List.range av.length).filter
      (fun i => !(eligible av cd i).isEmpty)).Pairwise (· < ·) :=
    List.Pairwise.filter _ (List.pairwise_lt_range _)
  apply List.Pairwise.imp_of_mem ?_ hp
  intro a b ha hb hab
  rw [List.mem_filter, List.mem_range] at ha hb
  obtain ⟨j, hj⟩ : ∃ j, (eligible av cd a).getLast? = some j := by
    cases hE : (eligible av cd a).getLast? with
    | none =>
      rw [List.getLast?_eq_none_iff] at hE
      rw [hE] at ha
      simp at ha
    | some j => exact ⟨j, rfl⟩
  obtain ⟨j', hj'⟩ : ∃ j', (eligible av cd b).getLast? = some j' := by
    cases hE : (eligible av cd b).getLast? with
    | none =>
      rw [List.getLast?_eq_none_iff] at hE
      rw [hE] at hb
      simp at hb
    | some j' => exact ⟨j', rfl⟩
  simp only [hj, hj', Option.getD_some]
  exact high_endpoint_mono av cd hsort a b (le_of_lt hab) hb.1 j j' hj hj'

/-- Along a non-decreasing chain of high endpoints, comparing with the
previous row (code) and comparing with the previously kept row (spec)
agree. -/
theorem groupScan_eq_keepScan (rest : List (ℚ × ℚ)) :
    ∀ prev kept : ℚ × ℚ, kept.2 = prev.2 →
      List.Chain' (fun p q : ℚ × ℚ => p.2 ≤ q.2) (prev :: rest) →
      groupScan prev rest = keepScan kept rest := by
  induction rest with
  | nil =>
    intro prev kept _ _
    rfl
  | cons p t ih =>
    intro prev kept heq hch
    have hc := List.chain'_cons.mp hch
    simp only [groupScan, keepScan]
    by_cases h : prev.2 < p.2
    · rw [if_pos h, if_pos (by rw [heq]; exact h)]
      rw [List.singleton_append, ih p p rfl hc.2]
    · rw [if_neg h, if_neg (by rw [heq]; exact h)]
      rw [List.nil_append]
      have hpe : p.2 = prev.2 := le_antisymm (not_lt.mp h) hc.1
      exact ih p kept (heq.trans hpe.symm) hc.2

/-- C2: on an ascending sequence of (non-negative) average ranks with at
least one surviving candidate, `_join_alg` returns exactly the cliques
described by the spec — farthest-partner candidates, anchors without a
partner discarded, and a greedy scan keeping a candidate exactly when its
high endpoint strictly exceeds that of the previously kept candidate (the
first candidate always kept). -/
theorem C2_join_alg_greedy_merge (av : List ℚ) (cd : ℚ)
    (hsort : List.Sorted (· ≤ ·) av) (hnn : ∀ x ∈ av, 0 ≤ x)
    (hcd : 0 < cd) (hne : setsRows av cd ≠ []) :
    joinAlg av cd = some (specCliques av cd) := by
  have heq := setsRows_eq_specCandidates av cd hnn
  have hch := setsRows_high_chain av cd hsort hnn
  unfold joinAlg specCliques
  rw [← heq]
  cases hS : setsRows av cd with
  | nil => exact absurd hS hne
  | cons s rest =>
    rw [hS] at hch
    simp only [Option.some_inj, List.cons.injEq, true_and]
    exact groupScan_eq_keepScan rest s s rfl hch

/-- Witness for C2 at `avranks = [1, 3/2, 5/2]`, `cd = 6/5`. -/
theorem C2_join_alg_greedy_merge_witness :
    List.Sorted (· ≤ ·) [(1 : ℚ), 3 / 2, 5 / 2] ∧
    (∀ x ∈ [(1 : ℚ), 3 / 2, 5 / 2], 0 ≤ x) ∧ (0 : ℚ) < 6 / 5 ∧
    setsRows [(1 : ℚ), 3 / 2, 5 / 2] (6 / 5) ≠ [] ∧
    joinAlg [(1 : ℚ), 3 / 2, 5 / 2] (6 / 5) =
      some (specCliques [(1 : ℚ), 3 / 2, 5 / 2] (6 / 5)) := by
  have hsort : List.Sorted (· ≤ ·) [(1 : ℚ), 3 / 2, 5 / 2] := by
    norm_num [List.sorted_cons]
  have hnn : ∀ x ∈ [(1 : ℚ), 3 / 2, 5 / 2], 0 ≤ x := by
    intro x hx
    rcases List.mem_cons.mp hx with rfl | hx
    · norm_num
    rcases List.mem_cons.mp hx with rfl | hx
    · norm_num
    rcases List.mem_cons.mp hx with rfl | hx
    · norm_num
    · simp at hx
  have hne : setsRows [(1 : ℚ), 3 / 2, 5 / 2] (6 / 5) ≠ [] := by
    intro hcontra
    norm_num [setsRows, setsAll, setsRow, eligible, List.range, List.range.loop,
      List.filter] at hcontra
    exact List.cons_ne_nil _ _ hcontra
  exact ⟨hsort, hnn, by norm_num, hne,
    C2_join_alg_greedy_merge [(1 : ℚ), 3 / 2, 5 / 2] (6 / 5) hsort hnn
      (by norm_num) hne⟩

end CriticalDistance
